import Mathlib

/-!
Verification of the PBM codec in `svg2pbm/svg2pbm.py`.

The codec-relevant functions of the source are embedded shallowly:

* text strings are `List Char`, byte buffers are `List Nat` (each entry a
  byte value `< 256`; `bytearray` guarantees this in the source),
* `bin2ascii` / `ascii2bin` are the row-repacking primitives,
* `loadpbm` is the decoder, modelled on a (filename, file-contents) pair,
* `write_pbm` is the encoder, modelled as producing the written bytes.

Fallible Python operations (`int(...)`, `bytes.decode('ascii')`, tuple
unpacking of `split`, `raise Exception`) are modelled with `Option` /
`Except PyErr`.  All definitions are structurally recursive and hence
executable by the kernel.
-/

/-- Python exceptions that the codec paths of the source can raise. -/
inductive PyErr where
  | valueError : PyErr
  | unicodeDecodeError : PyErr
  | exceptionMsg : List Char → PyErr
deriving DecidableEq, Repr

/-- Slicing a list into consecutive chunks: auxiliary walk.  `k` is the chunk
size, `cur` the current chunk reversed, `c` the remaining capacity of the
current chunk. -/
def chunkAux (k : Nat) : List α → List α → Nat → List (List α)
  | [], cur, _ => if cur.isEmpty then [] else [cur.reverse]
  | _ :: _, _, 0 => []
  | a :: t, cur, c + 1 =>
    if c = 0 then (a :: cur).reverse :: chunkAux k t [] k
    else chunkAux k t (a :: cur) c

/-- `chunkList l k` models Python `[l[i:i+k] for i in range(0, len(l), k)]`.
For `k = 0` Python `range` raises; the value for `k = 0` is never used. -/
def chunkList (l : List α) (k : Nat) : List (List α) :=
  if k = 0 then [] else chunkAux k l [] k

/-- The `k` low bits of `n`, most significant first, as `'0'`/`'1'`
characters: models the Python format string producing zero-padded binary. -/
def natBits : Nat → Nat → List Char
  | 0, _ => []
  | k + 1, n => natBits k (n / 2) ++ [if n % 2 = 1 then '1' else '0']

/-- Value of a `'0'`/`'1'` string read as a binary numeral. -/
def bitsVal (s : List Char) : Nat :=
  s.foldl (fun a c => 2 * a + (if c = '1' then 1 else 0)) 0

/-- Models Python `int(s, 2)`: fails on the empty string and on characters
other than `'0'`/`'1'` (the only inputs arising in the source). -/
def binStrToNat (s : List Char) : Option Nat :=
  if s ≠ [] ∧ ∀ c ∈ s, c = '0' ∨ c = '1' then some (bitsVal s) else none

/-- Apply a fallible function to every element in order, failing at the first
failure — the Python loop that appends `int(byte, 2)` to a `bytearray`. -/
def mapOpt (f : α → Option β) : List α → Option (List β)
  | [] => some []
  | a :: t =>
    match f a, mapOpt f t with
    | some b, some r => some (b :: r)
    | _, _ => none

/-- `bin2ascii` from the source: expand every byte to 8 bits, then take the
first `width` characters of every `width + refiller` sized slice. -/
def bin2ascii (bytebuffer : List Nat) (width : Nat) : List Char :=
  let refiller := 8 - width % 8
  let buffer := (bytebuffer.map (natBits 8)).flatten
  ((chunkList buffer (width + refiller)).map (fun s => s.take width)).flatten

/-- `ascii2bin` from the source: append `refiller` zero bits to every
`width`-sized slice, then pack the result 8 characters per byte via
`int(_, 2)`.  `width = 0` makes Python `range` raise `ValueError`. -/
def ascii2bin (asciibuffer : List Char) (width : Nat) : Option (List Nat) :=
  if width = 0 then none
  else
    let refiller := 8 - width % 8
    let rbuffer :=
      ((chunkList asciibuffer width).map
        (fun s => s ++ List.replicate refiller '0')).flatten
    mapOpt binStrToNat (chunkList rbuffer 8)

/-- Equality of `Except` results is decidable (used to evaluate the decoder
on concrete inputs). -/
def exceptDecEq [DecidableEq e] [DecidableEq a] : DecidableEq (Except e a)
  | .error x, .error y =>
    if h : x = y then isTrue (by rw [h])
    else isFalse (by intro hh; cases hh; exact h rfl)
  | .error _, .ok _ => isFalse (by intro h; cases h)
  | .ok _, .error _ => isFalse (by intro h; cases h)
  | .ok x, .ok y =>
    if h : x = y then isTrue (by rw [h])
    else isFalse (by intro hh; cases hh; exact h rfl)

instance [DecidableEq e] [DecidableEq a] : DecidableEq (Except e a) :=
  exceptDecEq

/-- Python `str.isspace` characters relevant to `int()` stripping. -/
def pyIsSpace (c : Char) : Bool :=
  decide (c.toNat = 32) || decide (c.toNat = 9) || decide (c.toNat = 10) ||
    decide (c.toNat = 13) || decide (c.toNat = 11) || decide (c.toNat = 12)

/-- Strip leading and trailing whitespace, as Python `int()` does. -/
def stripWS (s : List Char) : List Char :=
  ((s.dropWhile pyIsSpace).reverse.dropWhile pyIsSpace).reverse

/-- Decimal digit test (ASCII `'0'`..`'9'`). -/
def isDigitCh (c : Char) : Bool :=
  decide (48 ≤ c.toNat) && decide (c.toNat ≤ 57)

/-- Numeric value of a decimal digit character. -/
def digitVal (c : Char) : Nat := c.toNat - 48

/-- Value of a decimal digit string. -/
def digitsVal (s : List Char) : Nat :=
  s.foldl (fun a c => 10 * a + digitVal c) 0

/-- Models Python `int(s)`: strip whitespace, optional sign, then a nonempty
run of decimal digits; anything else raises `ValueError` (`none`). -/
def pyInt (s : List Char) : Option Int :=
  match stripWS s with
  | [] => none
  | c :: ds =>
    if c = '-' then
      if ds ≠ [] ∧ ds.all isDigitCh then some (-(digitsVal ds : Int)) else none
    else if c = '+' then
      if ds ≠ [] ∧ ds.all isDigitCh then some ((digitsVal ds : Int)) else none
    else if (c :: ds).all isDigitCh then some ((digitsVal (c :: ds) : Int))
    else none

/-- Decimal digits of `n`, most significant first (`natDigitsAux` supplies
structural fuel; `n + 1` is always enough). -/
def natDigitsAux : Nat → Nat → List Char
  | 0, _ => []
  | f + 1, n =>
    if n < 10 then [Nat.digitChar n]
    else natDigitsAux f (n / 10) ++ [Nat.digitChar (n % 10)]

/-- Models Python `str(n)` for a natural number. -/
def natDigits (n : Nat) : List Char := natDigitsAux (n + 1) n

/-- Models Python `str(z)` for an integer. -/
def intRepr (z : Int) : List Char :=
  if z < 0 then '-' :: natDigits (-z).toNat else natDigits z.toNat

/-- Models Python `str.split(sep)` for a single-character separator: empty
pieces are kept, and the empty string yields one empty piece. -/
def splitOnChar (sep : Char) : List Char → List (List Char)
  | [] => [[]]
  | c :: t =>
    if c = sep then [] :: splitOnChar sep t
    else
      match splitOnChar sep t with
      | [] => [[c]]
      | h :: r => (c :: h) :: r

/-- Models Python `file.readline()` on a byte buffer: returns the first line
including its terminating newline (or the whole rest at end of file), plus
the remaining bytes. -/
def readLine : List Nat → List Nat × List Nat
  | [] => ([], [])
  | b :: t =>
    if b = 10 then ([10], t)
    else ((b :: (readLine t).1, (readLine t).2))

/-- Models Python `bytes.decode('ascii')`: fails on bytes `≥ 128`. -/
def decodeAscii (l : List Nat) : Option (List Char) :=
  if ∀ b ∈ l, b < 128 then some (l.map Char.ofNat) else none

/-- Models Python `str.encode()` for ASCII strings (all the strings the
encoder emits are ASCII). -/
def strToBytes (s : List Char) : List Nat := s.map Char.toNat

/-- The fixed comment line `write_pbm` always writes. -/
def commentLine : List Char := ("# Created by svg2pbm converter").toList

/-- The buffer argument of `write_pbm`: the source passes a `str` for ascii
mode and a `bytearray` for bin mode. -/
inductive PbmBuf where
  | ascii : List Char → PbmBuf
  | bin : List Nat → PbmBuf

/-- The three header lines `write_pbm` writes: magic number, the fixed
creator comment, and the dimensions line. -/
def pbmHeaderBytes (magic : List Char) (width height : Nat) : List Nat :=
  strToBytes (magic ++ ['\n']) ++ strToBytes (commentLine ++ ['\n']) ++
    strToBytes (natDigits width ++ ' ' :: natDigits height ++ ['\n'])

/-- `write_pbm` from the source, modelled as the bytes written to the file.
Mode `"ascii"` selects the `P1` header, anything else the `P4` header; the
body is the raw buffer for mode `"bin"` and wrapped text lines otherwise.
`none` models a Python `TypeError` (buffer of the wrong type for the mode)
or the `ValueError` from `range(0, len, 0)` when `width = 0` in text mode. -/
def write_pbm (buffer : PbmBuf) (width height : Nat) (mode : List Char) :
    Option (List Nat) :=
  let header :=
    pbmHeaderBytes
      (if mode = ("ascii").toList then ("P1").toList else ("P4").toList)
      width height
  if mode = ("bin").toList then
    match buffer with
    | .bin b => some (header ++ b)
    | .ascii _ => none
  else
    match buffer with
    | .ascii s =>
      let lineLength := if width ≥ 70 then 70 else width
      if lineLength = 0 then none
      else some (header ++
        ((chunkList s lineLength).map (fun l => strToBytes (l ++ ['\n']))).flatten)
    | .bin _ => none

/-- The part of `loadpbm` from the `dim.split(' ')` unpacking onward: tuple
unpacking, then dispatch on the magic number exactly as in the source
(`P1`: strip newlines from the ascii-decoded body; `P4`: `bin2ascii`;
otherwise raise `Exception` naming the file). -/
def pbmTail (filename mode dimStr : List Char) (data : List Nat) :
    Except PyErr (List Char × List Char × Int × Int) :=
  match splitOnChar ' ' dimStr with
  | [wS, hS] =>
    if mode = ("P1").toList then
      match decodeAscii data with
      | none => .error .unicodeDecodeError
      | some dataStr =>
        match pyInt wS, pyInt hS with
        | some w, some h => .ok (mode, dataStr.filter (fun c => c != '\n'), w, h)
        | _, _ => .error .valueError
    else if mode = ("P4").toList then
      match pyInt wS with
      | none => .error .valueError
      | some w =>
        match pyInt hS with
        | some h => .ok (mode, bin2ascii data w.toNat, w, h)
        | none => .error .valueError
    else .error (.exceptionMsg (("unknown format from file ").toList ++ filename))
  | _ => .error .valueError

/-- `loadpbm` from the source, on (filename, file bytes): read the magic
line, skip one line unconditionally (the source's comment-line read), read
the dimensions line, then `pbmTail`.  Negative widths never reach
`bin2ascii` in any use modelled here, so `Int.toNat` is exact. -/
def loadpbm (filename : List Char) (contents : List Nat) :
    Except PyErr (List Char × List Char × Int × Int) :=
  let p1 := readLine contents
  match decodeAscii p1.1.dropLast with
  | none => .error .unicodeDecodeError
  | some mode =>
    let p2 := readLine p1.2
    let p3 := readLine p2.2
    match decodeAscii p3.1.dropLast with
    | none => .error .unicodeDecodeError
    | some dimStr => pbmTail filename mode dimStr p3.2

/-! ### Chunking lemmas -/

theorem chunkAux_cons_eq (k : Nat) :
    ∀ (l : List α) (cur : List α) (c : Nat), 0 < c → l ≠ [] →
      chunkAux k l cur c =
        (cur.reverse ++ l.take c) :: chunkAux k (l.drop c) [] k := by
  intro l
  induction l with
  | nil => intro cur c _ h; exact absurd rfl h
  | cons a t ih =>
    intro cur c hc _
    cases c with
    | zero => omega
    | succ c' =>
      by_cases hc' : c' = 0
      · subst hc'
        simp [chunkAux]
      · rw [chunkAux, if_neg hc']
        cases t with
        | nil =>
          simp [chunkAux]
        | cons b t' =>
          rw [ih _ c' (Nat.pos_of_ne_zero hc') (by simp)]
          simp [List.append_assoc]

theorem chunkList_cons_eq (l : List α) (k : Nat) (hk : 0 < k) (hl : l ≠ []) :
    chunkList l k = l.take k :: chunkList (l.drop k) k := by
  unfold chunkList
  rw [if_neg (Nat.pos_iff_ne_zero.mp hk), if_neg (Nat.pos_iff_ne_zero.mp hk)]
  rw [chunkAux_cons_eq k l [] k hk hl]
  rfl

theorem chunkList_nil (k : Nat) : chunkList ([] : List α) k = [] := by
  unfold chunkList
  by_cases h : k = 0
  · simp [h]
  · simp [h, chunkAux]

theorem flatten_chunkList (k : Nat) (hk : 0 < k) :
    (l : List α) → (chunkList l k).flatten = l
  | [] => by rw [chunkList_nil]; rfl
  | a :: t => by
    rw [chunkList_cons_eq (a :: t) k hk (by simp), List.flatten_cons,
      flatten_chunkList k hk ((a :: t).drop k)]
    exact List.take_append_drop k (a :: t)
termination_by l => l.length
decreasing_by simp [List.length_drop]; omega

theorem chunkList_flatten_exact (k : Nat) (hk : 0 < k) (L : List (List α))
    (hL : ∀ x ∈ L, x.length = k) : chunkList L.flatten k = L := by
  induction L with
  | nil => simp [chunkList_nil]
  | cons x L ih =>
    have hx : x.length = k := hL x (by simp)
    have hxne : x ≠ [] := by
      intro h; rw [h] at hx; simp at hx; omega
    rw [List.flatten_cons,
      chunkList_cons_eq (x ++ L.flatten) k hk (by simp [hxne]),
      List.take_left' hx, List.drop_left' hx,
      ih (fun y hy => hL y (by simp [hy]))]

theorem chunkList_append (k : Nat) (hk : 0 < k) :
    (l₁ : List α) → (l₂ : List α) → k ∣ l₁.length →
      chunkList (l₁ ++ l₂) k = chunkList l₁ k ++ chunkList l₂ k
  | [], l₂, _ => by simp [chunkList_nil]
  | a :: t, l₂, hdvd => by
    have hlen : k ≤ (a :: t).length := by
      rcases hdvd with ⟨m, hm⟩
      rcases Nat.eq_zero_or_pos m with h0 | h1
      · rw [h0] at hm; simp at hm
      · calc k = k * 1 := by omega
          _ ≤ k * m := Nat.mul_le_mul_left k h1
          _ = (a :: t).length := hm.symm
    rw [chunkList_cons_eq ((a :: t) ++ l₂) k hk (by simp),
      chunkList_cons_eq (a :: t) k hk (by simp),
      List.take_append_of_le_length hlen,
      List.drop_append_of_le_length hlen,
      chunkList_append k hk ((a :: t).drop k) l₂ ?_]
    · simp
    · rw [List.length_drop]
      exact Nat.dvd_sub' hdvd (dvd_refl k)
termination_by l₁ _ _ => l₁.length
decreasing_by simp [List.length_drop]; omega

theorem chunkList_sublists (k : Nat) (hk : 0 < k) :
    (l : List α) → ∀ x ∈ chunkList l k, ∀ a ∈ x, a ∈ l
  | [] => by rw [chunkList_nil]; intro x hx; exact absurd hx (by simp)
  | b :: t => by
    rw [chunkList_cons_eq (b :: t) k hk (by simp)]
    intro x hx a ha
    rcases List.mem_cons.mp hx with h | h
    · exact List.take_subset k (b :: t) (h ▸ ha)
    · exact List.drop_subset k (b :: t)
        (chunkList_sublists k hk ((b :: t).drop k) x h a ha)
termination_by l => l.length
decreasing_by simp [List.length_drop]; omega

theorem chunkList_length_le (k : Nat) (hk : 0 < k) :
    (l : List α) → ∀ x ∈ chunkList l k, x.length ≤ k
  | [] => by rw [chunkList_nil]; intro x hx; exact absurd hx (by simp)
  | b :: t => by
    rw [chunkList_cons_eq (b :: t) k hk (by simp)]
    intro x hx
    rcases List.mem_cons.mp hx with h | h
    · rw [h, List.length_take]; omega
    · exact chunkList_length_le k hk ((b :: t).drop k) x h
termination_by l => l.length
decreasing_by simp [List.length_drop]; omega

theorem chunkList_ne_nil (k : Nat) (hk : 0 < k) :
    (l : List α) → ∀ x ∈ chunkList l k, x ≠ []
  | [] => by rw [chunkList_nil]; intro x hx; exact absurd hx (by simp)
  | b :: t => by
    rw [chunkList_cons_eq (b :: t) k hk (by simp)]
    intro x hx
    rcases List.mem_cons.mp hx with h | h
    · rw [h]
      have : ((b :: t).take k).length = min k (b :: t).length := List.length_take k _
      intro hnil
      rw [hnil] at this
      simp at this
      omega
    · exact chunkList_ne_nil k hk ((b :: t).drop k) x h
termination_by l => l.length
decreasing_by simp [List.length_drop]; omega

theorem chunkList_length_eq (k : Nat) (hk : 0 < k) :
    (l : List α) → k ∣ l.length → ∀ x ∈ chunkList l k, x.length = k
  | [], _ => by rw [chunkList_nil]; intro x hx; exact absurd hx (by simp)
  | b :: t, hdvd => by
    have hlen : k ≤ (b :: t).length := by
      rcases hdvd with ⟨m, hm⟩
      rcases Nat.eq_zero_or_pos m with h0 | h1
      · rw [h0] at hm; simp at hm
      · calc k = k * 1 := by omega
          _ ≤ k * m := Nat.mul_le_mul_left k h1
          _ = (b :: t).length := hm.symm
    rw [chunkList_cons_eq (b :: t) k hk (by simp)]
    intro x hx
    rcases List.mem_cons.mp hx with h | h
    · rw [h, List.length_take]; omega
    · refine chunkList_length_eq k hk ((b :: t).drop k) ?_ x h
      rw [List.length_drop]
      exact Nat.dvd_sub' hdvd (dvd_refl k)
termination_by l _ => l.length
decreasing_by simp [List.length_drop]; omega

/-! ### Bit-string and byte-value lemmas -/

theorem natBits_length (k n : Nat) : (natBits k n).length = k := by
  induction k generalizing n with
  | zero => rfl
  | succ k ih => simp [natBits, ih]

theorem natBits_bits (k n : Nat) : ∀ c ∈ natBits k n, c = '0' ∨ c = '1' := by
  induction k generalizing n with
  | zero => intro c hc; exact absurd hc (by simp [natBits])
  | succ k ih =>
    intro c hc
    rw [natBits] at hc
    rcases List.mem_append.mp hc with h | h
    · exact ih (n / 2) c h
    · rcases List.mem_singleton.mp h with rfl
      by_cases h2 : n % 2 = 1 <;> simp [h2]

theorem bitsVal_concat (l : List Char) (c : Char) :
    bitsVal (l ++ [c]) = 2 * bitsVal l + (if c = '1' then 1 else 0) := by
  simp [bitsVal, List.foldl_append]

theorem natBits_bitsVal :
    ∀ (l : List Char), (∀ c ∈ l, c = '0' ∨ c = '1') →
      natBits l.length (bitsVal l) = l := by
  intro l
  induction l using List.reverseRecOn with
  | nil => intro _; rfl
  | append_singleton xs c ih =>
    intro hb
    rw [bitsVal_concat, List.length_append, List.length_singleton, natBits]
    have hxs : ∀ x ∈ xs, x = '0' ∨ x = '1' := fun x hx => hb x (by simp [hx])
    rcases hb c (by simp) with rfl | rfl
    · rw [if_neg (by decide)]
      have h2 : (2 * bitsVal xs + 0) / 2 = bitsVal xs := by omega
      have h3 : (2 * bitsVal xs + 0) % 2 = 0 := by omega
      rw [h2, h3, ih hxs]
      simp
    · rw [if_pos rfl]
      have h2 : (2 * bitsVal xs + 1) / 2 = bitsVal xs := by omega
      have h3 : (2 * bitsVal xs + 1) % 2 = 1 := by omega
      rw [h2, h3, ih hxs]
      simp

theorem bitsVal_natBits : ∀ (k n : Nat), n < 2 ^ k → bitsVal (natBits k n) = n := by
  intro k
  induction k with
  | zero => intro n hn; interval_cases n; rfl
  | succ k ih =>
    intro n hn
    rw [pow_succ] at hn
    rw [natBits, bitsVal_concat, ih (n / 2) (by omega)]
    by_cases h2 : n % 2 = 1
    · rw [if_pos h2, if_pos rfl]; omega
    · rw [if_neg h2, if_neg (by decide)]; omega

theorem bitsVal_lt : ∀ (l : List Char), bitsVal l < 2 ^ l.length := by
  intro l
  induction l using List.reverseRecOn with
  | nil => decide
  | append_singleton xs c ih =>
    rw [bitsVal_concat, List.length_append, List.length_singleton, pow_succ]
    by_cases hc : c = '1' <;> simp [hc] <;> omega

theorem mapOpt_append (f : α → Option β) (A B : List α) (ra rb : List β)
    (ha : mapOpt f A = some ra) (hb : mapOpt f B = some rb) :
    mapOpt f (A ++ B) = some (ra ++ rb) := by
  induction A generalizing ra with
  | nil =>
    have hra : ra = [] := by
      simp [mapOpt] at ha
      exact ha
    subst hra
    simpa using hb
  | cons a t ih =>
    rw [mapOpt] at ha
    rcases hfa : f a with _ | b
    · rw [hfa] at ha; simp at ha
    · rw [hfa] at ha
      rcases hft : mapOpt f t with _ | rt
      · rw [hft] at ha; simp at ha
      · rw [hft] at ha
        simp at ha
        rw [List.cons_append, mapOpt, hfa, ih rt hft]
        rw [← ha]
        simp

theorem bytes_of_bits : (p : List Char) → (∀ c ∈ p, c = '0' ∨ c = '1') →
    8 ∣ p.length →
    ∃ bs, mapOpt binStrToNat (chunkList p 8) = some bs ∧
      (∀ x ∈ bs, x < 256) ∧ (bs.map (natBits 8)).flatten = p
  | [], _, _ => ⟨[], by rw [chunkList_nil]; rfl, by simp, rfl⟩
  | a :: t, hp, hlen => by
    have h8 : (8 : Nat) ≤ (a :: t).length := by
      rcases hlen with ⟨m, hm⟩
      rcases Nat.eq_zero_or_pos m with h0 | h1
      · rw [h0] at hm; simp at hm
      · calc (8 : Nat) = 8 * 1 := by omega
          _ ≤ 8 * m := Nat.mul_le_mul_left 8 h1
          _ = (a :: t).length := hm.symm
    have hfront : ((a :: t).take 8).length = 8 := by
      rw [List.length_take]; omega
    have hfbits : ∀ c ∈ (a :: t).take 8, c = '0' ∨ c = '1' :=
      fun c hc => hp c (List.take_subset 8 (a :: t) hc)
    have hfront_some :
        binStrToNat ((a :: t).take 8) = some (bitsVal ((a :: t).take 8)) := by
      rw [binStrToNat, if_pos]
      exact ⟨by intro h; rw [h] at hfront; simp at hfront, hfbits⟩
    have hdrop_len : ((a :: t).drop 8).length = (a :: t).length - 8 :=
      List.length_drop 8 (a :: t)
    obtain ⟨bs, hbs, hbs256, hbsflat⟩ :=
      bytes_of_bits ((a :: t).drop 8)
        (fun c hc => hp c (List.drop_subset 8 (a :: t) hc))
        (by rw [hdrop_len]; exact Nat.dvd_sub' hlen (dvd_refl 8))
    refine ⟨bitsVal ((a :: t).take 8) :: bs, ?_, ?_, ?_⟩
    · rw [chunkList_cons_eq (a :: t) 8 (by omega) (by simp), mapOpt,
        hfront_some, hbs]
    · intro x hx
      rcases List.mem_cons.mp hx with rfl | h
      · have := bitsVal_lt ((a :: t).take 8)
        rw [hfront] at this
        omega
      · exact hbs256 x h
    · rw [List.map_cons, List.flatten_cons, hbsflat]
      have : natBits ((a :: t).take 8).length (bitsVal ((a :: t).take 8)) =
          (a :: t).take 8 := natBits_bitsVal _ hfbits
      rw [hfront] at this
      rw [this]
      exact List.take_append_drop 8 (a :: t)
termination_by p _ _ => p.length
decreasing_by simp [List.length_drop]; omega

theorem chunkList_flatten_dvd (k : Nat) (hk : 0 < k) (L : List (List α))
    (hL : ∀ x ∈ L, k ∣ x.length) :
    chunkList L.flatten k = (L.map (fun x => chunkList x k)).flatten := by
  induction L with
  | nil => simp [chunkList_nil]
  | cons x L ih =>
    rw [List.flatten_cons, chunkList_append k hk x L.flatten (hL x (by simp)),
      List.map_cons, List.flatten_cons,
      ih (fun y hy => hL y (by simp [hy]))]

theorem flatten_map_flatten (f : α → List β) (L : List (List α)) :
    (L.flatten.map f).flatten = (L.map (fun r => (r.map f).flatten)).flatten := by
  induction L with
  | nil => rfl
  | cons x L ih =>
    rw [List.flatten_cons, List.map_append, List.flatten_append, ih,
      List.map_cons, List.flatten_cons]

theorem length_rowBits (r : List Nat) :
    ((r.map (natBits 8)).flatten).length = 8 * r.length := by
  induction r with
  | nil => rfl
  | cons x r ih =>
    rw [List.map_cons, List.flatten_cons, List.length_append, ih,
      natBits_length]
    simp [Nat.mul_add, Nat.mul_succ]
    omega

theorem mapOpt_natBits (r : List Nat) (h256 : ∀ x ∈ r, x < 256) :
    mapOpt binStrToNat (r.map (natBits 8)) = some r := by
  induction r with
  | nil => rfl
  | cons x r ih =>
    rw [List.map_cons, mapOpt]
    have hx : binStrToNat (natBits 8 x) = some x := by
      rw [binStrToNat, if_pos, bitsVal_natBits 8 x (by have := h256 x (by simp); omega)]
      constructor
      · intro h
        have := natBits_length 8 x
        rw [h] at this
        simp at this
      · exact natBits_bits 8 x
    rw [hx, ih (fun y hy => h256 y (by simp [hy]))]

theorem mapOpt_natBits_flatten (rows : List (List Nat))
    (h256 : ∀ r ∈ rows, ∀ x ∈ r, x < 256) :
    mapOpt binStrToNat ((rows.map (fun r => r.map (natBits 8))).flatten) =
      some rows.flatten := by
  induction rows with
  | nil => rfl
  | cons r rows ih =>
    rw [List.map_cons, List.flatten_cons, List.flatten_cons]
    exact mapOpt_append binStrToNat _ _ r rows.flatten
      (mapOpt_natBits r (h256 r (by simp)))
      (ih (fun y hy => h256 y (by simp [hy])))

theorem packPadded (w : Nat) (hw : 0 < w) :
    ∀ (rows : List (List Char)), (∀ r ∈ rows, r.length = w) →
      (∀ r ∈ rows, ∀ c ∈ r, c = '0' ∨ c = '1') →
      ∃ B, mapOpt binStrToNat
            (chunkList ((rows.map
              (fun r => r ++ List.replicate (8 - w % 8) '0')).flatten) 8)
          = some B ∧
        (∀ x ∈ B, x < 256) ∧
        (B.map (natBits 8)).flatten =
          (rows.map (fun r => r ++ List.replicate (8 - w % 8) '0')).flatten := by
  intro rows
  induction rows with
  | nil =>
    intro _ _
    exact ⟨[], by rw [List.map_nil, List.flatten_nil, chunkList_nil]; rfl,
      by simp, by simp⟩
  | cons r rows ih =>
    intro hlen hbits
    have hrlen : (r ++ List.replicate (8 - w % 8) '0').length = w + (8 - w % 8) := by
      rw [List.length_append, List.length_replicate, hlen r (by simp)]
    have hdvd8 : 8 ∣ (r ++ List.replicate (8 - w % 8) '0').length := by
      rw [hrlen]; omega
    have hrbits : ∀ c ∈ r ++ List.replicate (8 - w % 8) '0', c = '0' ∨ c = '1' := by
      intro c hc
      rcases List.mem_append.mp hc with h | h
      · exact hbits r (by simp) c h
      · exact Or.inl (List.eq_of_mem_replicate h)
    obtain ⟨bs₁, hbs₁, h256₁, hflat₁⟩ :=
      bytes_of_bits (r ++ List.replicate (8 - w % 8) '0') hrbits hdvd8
    obtain ⟨bs₂, hbs₂, h256₂, hflat₂⟩ :=
      ih (fun y hy => hlen y (by simp [hy])) (fun y hy => hbits y (by simp [hy]))
    refine ⟨bs₁ ++ bs₂, ?_, ?_, ?_⟩
    · rw [List.map_cons, List.flatten_cons,
        chunkList_append 8 (by omega) _ _ hdvd8]
      exact mapOpt_append binStrToNat _ _ bs₁ bs₂ hbs₁ hbs₂
    · intro x hx
      rcases List.mem_append.mp hx with h | h
      · exact h256₁ x h
      · exact h256₂ x h
    · rw [List.map_append, List.flatten_append, hflat₁, hflat₂,
        List.map_cons, List.flatten_cons]

theorem ascii2bin_of_rows (w : Nat) (hw : 0 < w) (rows : List (List Char))
    (hlen : ∀ r ∈ rows, r.length = w)
    (hbits : ∀ r ∈ rows, ∀ c ∈ r, c = '0' ∨ c = '1') :
    ∃ B, ascii2bin rows.flatten w = some B ∧ (∀ x ∈ B, x < 256) ∧
      bin2ascii B w = rows.flatten := by
  have hw0 : w ≠ 0 := by omega
  have hchunks : chunkList rows.flatten w = rows :=
    chunkList_flatten_exact w hw rows hlen
  obtain ⟨B, hB, h256, hflat⟩ := packPadded w hw rows hlen hbits
  refine ⟨B, ?_, h256, ?_⟩
  · simp only [ascii2bin, if_neg hw0]
    rw [hchunks]
    exact hB
  · simp only [bin2ascii]
    rw [hflat]
    have hpadlen : ∀ p ∈ rows.map (fun r => r ++ List.replicate (8 - w % 8) '0'),
        p.length = w + (8 - w % 8) := by
      intro p hp
      obtain ⟨r, hr, rfl⟩ := List.mem_map.mp hp
      rw [List.length_append, List.length_replicate, hlen r hr]
    rw [chunkList_flatten_exact (w + (8 - w % 8)) (by omega) _ hpadlen]
    rw [List.map_map]
    have : rows.map ((fun s => s.take w) ∘ fun r => r ++ List.replicate (8 - w % 8) '0')
        = rows.map id := by
      apply List.map_congr_left
      intro r hr
      simp only [Function.comp_apply, id]
      exact List.take_left' (hlen r hr)
    rw [this, List.map_id]

theorem bin2ascii_ascii2bin (w : Nat) (hw : 0 < w) (s : List Char)
    (hs : ∀ c ∈ s, c = '0' ∨ c = '1') (hdvd : w ∣ s.length) :
    ∃ B, ascii2bin s w = some B ∧ (∀ x ∈ B, x < 256) ∧ bin2ascii B w = s := by
  have hflat : (chunkList s w).flatten = s := flatten_chunkList w hw s
  obtain ⟨B, hB, h256, hba⟩ :=
    ascii2bin_of_rows w hw (chunkList s w)
      (chunkList_length_eq w hw s hdvd)
      (fun r hr c hc => hs c (chunkList_sublists w hw s r hr c hc))
  rw [hflat] at hB hba
  exact ⟨B, hB, h256, hba⟩

theorem ascii2bin_bin2ascii_rows (w : Nat) (hw : 0 < w) (rows : List (List Nat))
    (hlen : ∀ r ∈ rows, r.length = w / 8 + 1)
    (h256 : ∀ r ∈ rows, ∀ x ∈ r, x < 256)
    (hpad : ∀ r ∈ rows,
      ((r.map (natBits 8)).flatten).drop w = List.replicate (8 - w % 8) '0') :
    ascii2bin (bin2ascii rows.flatten w) w = some rows.flatten := by
  have hw0 : w ≠ 0 := by omega
  have hrowlen : ∀ r ∈ rows, ((r.map (natBits 8)).flatten).length = w + (8 - w % 8) := by
    intro r hr
    rw [length_rowBits, hlen r hr]
    omega
  have hbuf : ((rows.flatten.map (natBits 8))).flatten
      = (rows.map (fun r => (r.map (natBits 8)).flatten)).flatten :=
    flatten_map_flatten (natBits 8) rows
  have hchunksbig :
      chunkList ((rows.map (fun r => (r.map (natBits 8)).flatten)).flatten)
          (w + (8 - w % 8))
        = rows.map (fun r => (r.map (natBits 8)).flatten) := by
    apply chunkList_flatten_exact (w + (8 - w % 8)) (by omega)
    intro p hp
    obtain ⟨r, hr, rfl⟩ := List.mem_map.mp hp
    exact hrowlen r hr
  have hbin : bin2ascii rows.flatten w
      = (rows.map (fun r => ((r.map (natBits 8)).flatten).take w)).flatten := by
    simp only [bin2ascii]
    rw [hbuf, hchunksbig, List.map_map]
    rfl
  rw [hbin]
  simp only [ascii2bin, if_neg hw0]
  have htlen : ∀ p ∈ rows.map (fun r => ((r.map (natBits 8)).flatten).take w),
      p.length = w := by
    intro p hp
    obtain ⟨r, hr, rfl⟩ := List.mem_map.mp hp
    rw [List.length_take, hrowlen r hr]
    omega
  rw [chunkList_flatten_exact w hw _ htlen, List.map_map]
  have hrepad : rows.map ((fun s => s ++ List.replicate (8 - w % 8) '0')
        ∘ fun r => ((r.map (natBits 8)).flatten).take w)
      = rows.map (fun r => (r.map (natBits 8)).flatten) := by
    apply List.map_congr_left
    intro r hr
    simp only [Function.comp_apply]
    rw [← hpad r hr]
    exact List.take_append_drop w _
  rw [hrepad]
  have hchunks8 :
      chunkList ((rows.map (fun r => (r.map (natBits 8)).flatten)).flatten) 8
        = (rows.map (fun r => r.map (natBits 8))).flatten := by
    rw [chunkList_flatten_dvd 8 (by omega) _ ?_]
    · congr 1
      rw [List.map_map]
      apply List.map_congr_left
      intro r hr
      simp only [Function.comp_apply]
      apply chunkList_flatten_exact 8 (by omega)
      intro p hp
      obtain ⟨x, _, rfl⟩ := List.mem_map.mp hp
      exact natBits_length 8 x
    · intro x hx
      obtain ⟨r, hr, rfl⟩ := List.mem_map.mp hx
      rw [length_rowBits]
      omega
  rw [hchunks8]
  exact mapOpt_natBits_flatten rows h256

/-! ### Decimal digits, `int()` parsing, and header plumbing -/

theorem natDigitsAux_congr :
    ∀ (f₁ f₂ n : Nat), n < f₁ → n < f₂ →
      natDigitsAux f₁ n = natDigitsAux f₂ n := by
  intro f₁
  induction f₁ with
  | zero => intro f₂ n h; omega
  | succ f ih =>
    intro f₂ n h₁ h₂
    cases f₂ with
    | zero => omega
    | succ g =>
      rw [natDigitsAux, natDigitsAux]
      by_cases h10 : n < 10
      · rw [if_pos h10, if_pos h10]
      · rw [if_neg h10, if_neg h10, ih g (n / 10) (by omega) (by omega)]

theorem natDigits_eq (n : Nat) :
    natDigits n =
      if n < 10 then [Nat.digitChar n]
      else natDigits (n / 10) ++ [Nat.digitChar (n % 10)] := by
  rw [natDigits, natDigitsAux]
  by_cases h10 : n < 10
  · rw [if_pos h10, if_pos h10]
  · rw [if_neg h10, if_neg h10, natDigits,
      natDigitsAux_congr n (n / 10 + 1) (n / 10) (by omega) (by omega)]

theorem natDigits_digit (n : Nat) :
    ∀ c ∈ natDigits n, 48 ≤ c.toNat ∧ c.toNat ≤ 57 := by
  induction n using Nat.strong_induction_on with
  | _ n ih =>
    rw [natDigits_eq]
    by_cases h : n < 10
    · rw [if_pos h]
      intro c hc
      rcases List.mem_singleton.mp hc with rfl
      interval_cases n <;> decide
    · rw [if_neg h]
      intro c hc
      rcases List.mem_append.mp hc with h1 | h1
      · exact ih (n / 10) (by omega) c h1
      · rcases List.mem_singleton.mp h1 with rfl
        have h10 : n % 10 < 10 := by omega
        revert h10
        generalize n % 10 = m
        intro h10
        interval_cases m <;> decide

theorem natDigits_ne_nil (n : Nat) : natDigits n ≠ [] := by
  rw [natDigits_eq]
  by_cases h : n < 10 <;> simp [h]

theorem digitVal_digitChar (m : Nat) (hm : m < 10) :
    digitVal (Nat.digitChar m) = m := by
  interval_cases m <;> decide

theorem digitsVal_concat (l : List Char) (c : Char) :
    digitsVal (l ++ [c]) = 10 * digitsVal l + digitVal c := by
  simp [digitsVal, List.foldl_append]

theorem digitsVal_natDigits (n : Nat) : digitsVal (natDigits n) = n := by
  induction n using Nat.strong_induction_on with
  | _ n ih =>
    rw [natDigits_eq]
    by_cases h : n < 10
    · rw [if_pos h]
      have : digitsVal [Nat.digitChar n] = digitVal (Nat.digitChar n) := by
        simp [digitsVal]
      rw [this, digitVal_digitChar n h]
    · rw [if_neg h, digitsVal_concat, ih (n / 10) (by omega),
        digitVal_digitChar (n % 10) (by omega)]
      omega

theorem dropWhile_eq_self_of_false (p : Char → Bool) (l : List Char)
    (h : ∀ c ∈ l, p c = false) : l.dropWhile p = l := by
  cases l with
  | nil => rfl
  | cons a t => simp [List.dropWhile_cons, h a (by simp)]

theorem stripWS_eq_self (l : List Char) (h : ∀ c ∈ l, pyIsSpace c = false) :
    stripWS l = l := by
  rw [stripWS, dropWhile_eq_self_of_false _ _ h,
    dropWhile_eq_self_of_false _ _ (fun c hc => h c (List.mem_reverse.mp hc)),
    List.reverse_reverse]

theorem digit_not_space (c : Char) (h48 : 48 ≤ c.toNat) (h57 : c.toNat ≤ 57) :
    pyIsSpace c = false := by
  simp [pyIsSpace]
  omega

theorem digit_isDigitCh (c : Char) (h48 : 48 ≤ c.toNat) (h57 : c.toNat ≤ 57) :
    isDigitCh c = true := by
  simp [isDigitCh]
  omega

theorem pyInt_of_digits (l : List Char)
    (hne : l ≠ []) (hd : ∀ c ∈ l, 48 ≤ c.toNat ∧ c.toNat ≤ 57) :
    pyInt l = some ((digitsVal l : Int)) := by
  obtain ⟨c, ds, rfl⟩ : ∃ c ds, l = c :: ds := by
    cases l with
    | nil => exact absurd rfl hne
    | cons c ds => exact ⟨c, ds, rfl⟩
  have hstrip : stripWS (c :: ds) = c :: ds :=
    stripWS_eq_self _ (fun x hx => digit_not_space x (hd x hx).1 (hd x hx).2)
  have hc48 : 48 ≤ c.toNat := (hd c (by simp)).1
  have hcminus : ¬ c = '-' := by
    intro rfl9
    rw [rfl9] at hc48
    exact absurd hc48 (by decide)
  have hcplus : ¬ c = '+' := by
    intro rfl9
    rw [rfl9] at hc48
    exact absurd hc48 (by decide)
  have hall : (c :: ds).all isDigitCh = true := by
    rw [List.all_eq_true]
    intro x hx
    exact digit_isDigitCh x (hd x hx).1 (hd x hx).2
  simp only [pyInt, hstrip, if_neg hcminus, if_neg hcplus, if_pos hall]

theorem pyInt_natDigits (n : Nat) : pyInt (natDigits n) = some ((n : Int)) := by
  rw [pyInt_of_digits (natDigits n) (natDigits_ne_nil n) (natDigits_digit n),
    digitsVal_natDigits]

theorem pyInt_intRepr (z : Int) : pyInt (intRepr z) = some z := by
  by_cases hz : z < 0
  · rw [intRepr, if_pos hz]
    have hd := natDigits_digit (-z).toNat
    have hne := natDigits_ne_nil (-z).toNat
    obtain ⟨c, ds, hcd⟩ : ∃ c ds, natDigits (-z).toNat = c :: ds := by
      cases h : natDigits (-z).toNat with
      | nil => exact absurd h hne
      | cons c ds => exact ⟨c, ds, rfl⟩
    have hstrip : stripWS ('-' :: natDigits (-z).toNat) = '-' :: natDigits (-z).toNat := by
      apply stripWS_eq_self
      intro x hx
      rcases List.mem_cons.mp hx with rfl | hx'
      · decide
      · exact digit_not_space x (hd x hx').1 (hd x hx').2
    have hall : (natDigits (-z).toNat).all isDigitCh = true := by
      rw [List.all_eq_true]
      intro x hx
      exact digit_isDigitCh x (hd x hx).1 (hd x hx).2
    rw [hcd] at hstrip hall hne ⊢
    simp only [pyInt, hstrip]
    rw [if_pos trivial,
      if_pos (⟨by simp, hall⟩ : (c :: ds) ≠ [] ∧ (c :: ds).all isDigitCh = true)]
    have hval : digitsVal (c :: ds) = (-z).toNat := by
      rw [← hcd, digitsVal_natDigits]
    rw [hval]
    congr 1
    rw [Int.toNat_of_nonneg (by omega : (0 : Int) ≤ -z)]
    omega
  · rw [intRepr, if_neg hz, pyInt_natDigits]
    congr 1
    rw [Int.toNat_of_nonneg (by omega : (0 : Int) ≤ z)]

/-! ### Evaluating the decoder on structured inputs -/

theorem strToBytes_line (l : List Char) :
    strToBytes (l ++ ['\n']) = strToBytes l ++ [10] := by
  rw [strToBytes, List.map_append]
  rfl

theorem readLine_append (bs rest : List Nat) (h : ∀ b ∈ bs, b ≠ 10) :
    readLine (bs ++ 10 :: rest) = (bs ++ [10], rest) := by
  induction bs with
  | nil => simp [readLine]
  | cons b t ih =>
    rw [List.cons_append, readLine, if_neg (h b (by simp)),
      ih (fun x hx => h x (by simp [hx]))]
    simp

theorem dropLast_concat_self (l : List Nat) (x : Nat) :
    (l ++ [x]).dropLast = l := by simp

theorem decodeAscii_strToBytes (l : List Char) (h : ∀ c ∈ l, c.toNat < 128) :
    decodeAscii (strToBytes l) = some l := by
  rw [decodeAscii, if_pos]
  · congr 1
    rw [strToBytes, List.map_map]
    have heq : l.map (Char.ofNat ∘ Char.toNat) = l.map id :=
      List.map_congr_left (fun c _ => Char.ofNat_toNat c)
    rw [heq, List.map_id]
  · intro b hb
    obtain ⟨c, hcmem, rfl⟩ := List.mem_map.mp hb
    exact h c hcmem

theorem splitOnChar_no_sep (sep : Char) (l : List Char)
    (h : ∀ c ∈ l, c ≠ sep) : splitOnChar sep l = [l] := by
  induction l with
  | nil => rfl
  | cons c t ih =>
    rw [splitOnChar, if_neg (h c (by simp)),
      ih (fun x hx => h x (by simp [hx]))]

theorem splitOnChar_append_sep (sep : Char) (a b : List Char)
    (h : ∀ c ∈ a, c ≠ sep) :
    splitOnChar sep (a ++ sep :: b) = a :: splitOnChar sep b := by
  induction a with
  | nil => simp [splitOnChar]
  | cons c t ih =>
    rw [List.cons_append, splitOnChar, if_neg (h c (by simp)),
      ih (fun x hx => h x (by simp [hx]))]

theorem filter_wrap (L : List (List Char)) (h : ∀ l ∈ L, ∀ c ∈ l, c ≠ '\n') :
    ((L.map (fun l => l ++ ['\n'])).flatten).filter (fun c => c != '\n')
      = L.flatten := by
  induction L with
  | nil => rfl
  | cons x L ih =>
    have hx : x.filter (fun c => c != '\n') = x := by
      rw [List.filter_eq_self]
      intro c hcmem
      simpa using h x (by simp) c hcmem
    have hn : (['\n'] : List Char).filter (fun c => c != '\n') = [] := rfl
    rw [List.map_cons, List.flatten_cons, List.filter_append,
      List.filter_append, hx, hn,
      ih (fun y hy c hcmem => h y (by simp [hy]) c hcmem), List.flatten_cons]
    simp

theorem natDigits_byte (n : Nat) :
    ∀ c ∈ natDigits n, c.toNat < 128 ∧ c.toNat ≠ 10 ∧ c ≠ ' ' := by
  intro c hcmem
  obtain ⟨h48, h57⟩ := natDigits_digit n c hcmem
  refine ⟨by omega, by omega, ?_⟩
  intro rfl9
  rw [rfl9] at h48
  exact absurd h48 (by decide)

theorem split_dims (w h : Nat) :
    splitOnChar ' ' (natDigits w ++ ' ' :: natDigits h)
      = [natDigits w, natDigits h] := by
  rw [splitOnChar_append_sep ' ' _ _
      (fun c hcmem => (natDigits_byte w c hcmem).2.2),
    splitOnChar_no_sep ' ' _ (fun c hcmem => (natDigits_byte h c hcmem).2.2)]

theorem dims_bytes (w h : Nat) :
    ∀ c ∈ natDigits w ++ ' ' :: natDigits h, c.toNat < 128 ∧ c.toNat ≠ 10 := by
  intro c hcmem
  rcases List.mem_append.mp hcmem with h1 | h1
  · exact ⟨(natDigits_byte w c h1).1, (natDigits_byte w c h1).2.1⟩
  · rcases List.mem_cons.mp h1 with rfl | h2
    · exact ⟨by decide, by decide⟩
    · exact ⟨(natDigits_byte h c h2).1, (natDigits_byte h c h2).2.1⟩

theorem bit_char_byte (c : Char) (h : c = '0' ∨ c = '1') :
    c.toNat < 128 ∧ c.toNat ≠ 10 ∧ c ≠ '\n' := by
  rcases h with rfl | rfl <;> exact ⟨by decide, by decide, by decide⟩

theorem loadpbm_eval (fname magic comment dim : List Char) (body : List Nat)
    (hm : ∀ c ∈ magic, c.toNat < 128 ∧ c.toNat ≠ 10)
    (hcm : ∀ c ∈ comment, c.toNat ≠ 10)
    (hd : ∀ c ∈ dim, c.toNat < 128 ∧ c.toNat ≠ 10) :
    loadpbm fname
        (strToBytes (magic ++ ['\n']) ++ strToBytes (comment ++ ['\n']) ++
          strToBytes (dim ++ ['\n']) ++ body)
      = pbmTail fname magic dim body := by
  have hbm : ∀ b ∈ strToBytes magic, b ≠ 10 := by
    intro b hb
    obtain ⟨c, hcmem, rfl⟩ := List.mem_map.mp hb
    exact (hm c hcmem).2
  have hbc : ∀ b ∈ strToBytes comment, b ≠ 10 := by
    intro b hb
    obtain ⟨c, hcmem, rfl⟩ := List.mem_map.mp hb
    exact hcm c hcmem
  have hbd : ∀ b ∈ strToBytes dim, b ≠ 10 := by
    intro b hb
    obtain ⟨c, hcmem, rfl⟩ := List.mem_map.mp hb
    exact (hd c hcmem).2
  have hfile : strToBytes (magic ++ ['\n']) ++ strToBytes (comment ++ ['\n']) ++
        strToBytes (dim ++ ['\n']) ++ body
      = strToBytes magic ++ 10 ::
        (strToBytes comment ++ 10 :: (strToBytes dim ++ 10 :: body)) := by
    rw [strToBytes_line, strToBytes_line, strToBytes_line]
    simp [List.append_assoc]
  rw [hfile]
  simp only [loadpbm, readLine_append _ _ hbm, readLine_append _ _ hbc,
    readLine_append _ _ hbd, dropLast_concat_self,
    decodeAscii_strToBytes magic (fun c hcmem => (hm c hcmem).1),
    decodeAscii_strToBytes dim (fun c hcmem => (hd c hcmem).1)]

theorem pbmTail_P1 (fname : List Char) (w h : Nat) (body : List Nat)
    (hbody : ∀ b ∈ body, b < 128) :
    pbmTail fname (("P1").toList) (natDigits w ++ ' ' :: natDigits h) body
      = .ok (("P1").toList,
          (body.map Char.ofNat).filter (fun c => c != '\n'),
          (w : Int), (h : Int)) := by
  have hdec : decodeAscii body = some (body.map Char.ofNat) := by
    rw [decodeAscii, if_pos hbody]
  simp only [pbmTail, split_dims, hdec, pyInt_natDigits]
  rw [if_pos trivial]

theorem pbmTail_P4 (fname : List Char) (w h : Nat) (body : List Nat) :
    pbmTail fname (("P4").toList) (natDigits w ++ ' ' :: natDigits h) body
      = .ok (("P4").toList, bin2ascii body w, (w : Int), (h : Int)) := by
  simp only [pbmTail, split_dims, pyInt_natDigits]
  rw [if_neg (by decide), if_pos trivial]
  simp [Int.toNat_natCast]

theorem pbmTail_unknown (fname tok wS hS dim : List Char) (body : List Nat)
    (hsplit : splitOnChar ' ' dim = [wS, hS])
    (hne1 : tok ≠ ("P1").toList) (hne4 : tok ≠ ("P4").toList) :
    pbmTail fname tok dim body
      = .error (.exceptionMsg (("unknown format from file ").toList ++ fname)) := by
  simp only [pbmTail, hsplit]
  rw [if_neg hne1, if_neg hne4]

theorem pbmTail_badsplit (fname mode dim : List Char) (body : List Nat)
    (h : (splitOnChar ' ' dim).length ≠ 2) :
    pbmTail fname mode dim body = .error .valueError := by
  rcases hs : splitOnChar ' ' dim with _ | ⟨a, _ | ⟨b, _ | ⟨c, t⟩⟩⟩
  · simp only [pbmTail, hs]
  · simp only [pbmTail, hs]
  · rw [hs] at h
    simp at h
  · simp only [pbmTail, hs]

theorem write_pbm_ascii_eq (s : List Char) (w h : Nat)
    (hll : (if w ≥ 70 then 70 else w) ≠ 0) :
    write_pbm (.ascii s) w h (("ascii").toList)
      = some (pbmHeaderBytes (("P1").toList) w h ++
          ((chunkList s (if w ≥ 70 then 70 else w)).map
            (fun l => strToBytes (l ++ ['\n']))).flatten) := by
  have hred : write_pbm (.ascii s) w h (("ascii").toList)
      = if (if w ≥ 70 then 70 else w) = 0 then none
        else some (pbmHeaderBytes (("P1").toList) w h ++
          ((chunkList s (if w ≥ 70 then 70 else w)).map
            (fun l => strToBytes (l ++ ['\n']))).flatten) := rfl
  rw [hred, if_neg hll]

theorem write_pbm_bin_eq (b : List Nat) (w h : Nat) :
    write_pbm (.bin b) w h (("bin").toList)
      = some (pbmHeaderBytes (("P4").toList) w h ++ b) := rfl

theorem map_ofNat_strToBytes (l : List Char) :
    (strToBytes l).map Char.ofNat = l := by
  rw [strToBytes, List.map_map]
  have heq : l.map (Char.ofNat ∘ Char.toNat) = l.map id :=
    List.map_congr_left (fun c _ => Char.ofNat_toNat c)
  rw [heq, List.map_id]

theorem pbmHeader_lines (magic : List Char) (w h : Nat) (body : List Nat)
    (hm : ∀ c ∈ magic, c.toNat ≠ 10) :
    (readLine (pbmHeaderBytes magic w h ++ body)).1
        = strToBytes magic ++ [10] ∧
    (readLine (readLine (pbmHeaderBytes magic w h ++ body)).2).1
        = strToBytes commentLine ++ [10] ∧
    (readLine (readLine (readLine (pbmHeaderBytes magic w h ++ body)).2).2).1
        = strToBytes (natDigits w ++ ' ' :: natDigits h) ++ [10] := by
  have hbm : ∀ b ∈ strToBytes magic, b ≠ 10 := by
    intro b hb
    obtain ⟨c, hcmem, rfl⟩ := List.mem_map.mp hb
    exact hm c hcmem
  have hbc : ∀ b ∈ strToBytes commentLine, b ≠ 10 := by decide
  have hbd : ∀ b ∈ strToBytes (natDigits w ++ ' ' :: natDigits h), b ≠ 10 := by
    intro b hb
    obtain ⟨c, hcmem, rfl⟩ := List.mem_map.mp hb
    exact (dims_bytes w h c hcmem).2
  have hfile : pbmHeaderBytes magic w h ++ body
      = strToBytes magic ++ 10 ::
        (strToBytes commentLine ++ 10 ::
          (strToBytes (natDigits w ++ ' ' :: natDigits h) ++ 10 :: body)) := by
    rw [pbmHeaderBytes, strToBytes_line, strToBytes_line, strToBytes_line]
    simp [List.append_assoc]
  refine ⟨?_, ?_, ?_⟩
  · rw [hfile, readLine_append _ _ hbm]
  · rw [hfile, readLine_append _ _ hbm]
    dsimp only
    rw [readLine_append _ _ hbc]
  · rw [hfile, readLine_append _ _ hbm]
    dsimp only
    rw [readLine_append _ _ hbc]
    dsimp only
    rw [readLine_append _ _ hbd]

theorem mapOpt_chunks_bits :
    (p : List Char) → (∀ c ∈ p, c = '0' ∨ c = '1') →
      ∃ bs, mapOpt binStrToNat (chunkList p 8) = some bs
  | [], _ => ⟨[], by rw [chunkList_nil]; rfl⟩
  | a :: t, hp => by
    have hfront : binStrToNat ((a :: t).take 8)
        = some (bitsVal ((a :: t).take 8)) := by
      rw [binStrToNat, if_pos]
      refine ⟨?_, fun c hc => hp c (List.take_subset 8 (a :: t) hc)⟩
      intro hnil
      have := List.length_take 8 (a :: t)
      rw [hnil] at this
      simp at this
      omega
    obtain ⟨bs, hbs⟩ :=
      mapOpt_chunks_bits ((a :: t).drop 8)
        (fun c hc => hp c (List.drop_subset 8 (a :: t) hc))
    refine ⟨bitsVal ((a :: t).take 8) :: bs, ?_⟩
    rw [chunkList_cons_eq (a :: t) 8 (by omega) (by simp), mapOpt,
      hfront, hbs]
termination_by p _ => p.length
decreasing_by simp [List.length_drop]; omega

theorem intRepr_byte (z : Int) :
    ∀ c ∈ intRepr z, c.toNat < 128 ∧ c.toNat ≠ 10 ∧ c ≠ ' ' := by
  intro c hcmem
  rw [intRepr] at hcmem
  by_cases hz : z < 0
  · rw [if_pos hz] at hcmem
    rcases List.mem_cons.mp hcmem with rfl | h1
    · exact ⟨by decide, by decide, by decide⟩
    · exact natDigits_byte _ c h1
  · rw [if_neg hz] at hcmem
    exact natDigits_byte _ c hcmem

theorem dims_bytes_int (w h : Int) :
    ∀ c ∈ intRepr w ++ ' ' :: intRepr h, c.toNat < 128 ∧ c.toNat ≠ 10 := by
  intro c hcmem
  rcases List.mem_append.mp hcmem with h1 | h1
  · exact ⟨(intRepr_byte w c h1).1, (intRepr_byte w c h1).2.1⟩
  · rcases List.mem_cons.mp h1 with rfl | h2
    · exact ⟨by decide, by decide⟩
    · exact ⟨(intRepr_byte h c h2).1, (intRepr_byte h c h2).2.1⟩

theorem split_dims_int (w h : Int) :
    splitOnChar ' ' (intRepr w ++ ' ' :: intRepr h)
      = [intRepr w, intRepr h] := by
  rw [splitOnChar_append_sep ' ' _ _
      (fun c hcmem => (intRepr_byte w c hcmem).2.2),
    splitOnChar_no_sep ' ' _ (fun c hcmem => (intRepr_byte h c hcmem).2.2)]

theorem pbmTail_P1_int (fname : List Char) (w h : Int) (body : List Nat)
    (hbody : ∀ b ∈ body, b < 128) :
    pbmTail fname (("P1").toList) (intRepr w ++ ' ' :: intRepr h) body
      = .ok (("P1").toList,
          (body.map Char.ofNat).filter (fun c => c != '\n'), w, h) := by
  have hdec : decodeAscii body = some (body.map Char.ofNat) := by
    rw [decodeAscii, if_pos hbody]
  simp only [pbmTail, split_dims_int, hdec, pyInt_intRepr]
  rw [if_pos trivial]

theorem lineLength_ne_zero (w : Nat) (hw : 0 < w) :
    (if w ≥ 70 then 70 else w) ≠ 0 := by
  by_cases h70 : w ≥ 70 <;> simp [h70] <;> omega

/-! ### Claim theorems -/

/-- C1: encode/decode round-trip.  For every bitmap with positive width and
height and a `'0'`/`'1'` bit-string of length `width * height`, writing it
with `write_pbm` in ascii mode and decoding the resulting bytes with
`loadpbm` returns the same width, height and bit string; likewise writing
the `ascii2bin`-packed buffer in bin mode and decoding it. -/
theorem c1_roundtrip (w h : Nat) (hw : 0 < w) (hh : 0 < h) (bits : List Char)
    (hb : ∀ c ∈ bits, c = '0' ∨ c = '1') (hlen : bits.length = w * h)
    (fname : List Char) :
    (∃ out, write_pbm (.ascii bits) w h (("ascii").toList) = some out ∧
      loadpbm fname out = .ok (("P1").toList, bits, (w : Int), (h : Int))) ∧
    (∃ bin out, ascii2bin bits w = some bin ∧
      write_pbm (.bin bin) w h (("bin").toList) = some out ∧
      loadpbm fname out = .ok (("P4").toList, bits, (w : Int), (h : Int))) := by
  have hll : 0 < (if w ≥ 70 then 70 else w) := by
    by_cases h70 : w ≥ 70 <;> simp [h70] <;> omega
  constructor
  · refine ⟨_, write_pbm_ascii_eq bits w h (lineLength_ne_zero w hw), ?_⟩
    have hbody128 : ∀ b ∈ ((chunkList bits (if w ≥ 70 then 70 else w)).map
        (fun l => strToBytes (l ++ ['\n']))).flatten, b < 128 := by
      intro b hbmem
      obtain ⟨x, hx, hbx⟩ := List.mem_flatten.mp hbmem
      obtain ⟨l, hl, rfl⟩ := List.mem_map.mp hx
      obtain ⟨c, hcmem, rfl⟩ := List.mem_map.mp hbx
      rcases List.mem_append.mp hcmem with h1 | h1
      · exact (bit_char_byte c
          (hb c (chunkList_sublists _ hll bits l hl c h1))).1
      · rcases List.mem_singleton.mp h1 with rfl
        decide
    rw [pbmHeaderBytes,
      loadpbm_eval fname (("P1").toList) commentLine
        (natDigits w ++ ' ' :: natDigits h) _ (by decide) (by decide)
        (dims_bytes w h),
      pbmTail_P1 fname w h _ hbody128]
    have hbodyeq : ((chunkList bits (if w ≥ 70 then 70 else w)).map
          (fun l => strToBytes (l ++ ['\n']))).flatten
        = strToBytes (((chunkList bits (if w ≥ 70 then 70 else w)).map
            (fun l => l ++ ['\n'])).flatten) := by
      simp only [strToBytes, List.map_flatten, List.map_map]
      rfl
    have hnonl : ∀ l ∈ chunkList bits (if w ≥ 70 then 70 else w),
        ∀ c ∈ l, c ≠ '\n' := by
      intro l hl c hcmem
      exact (bit_char_byte c
        (hb c (chunkList_sublists _ hll bits l hl c hcmem))).2.2
    rw [hbodyeq, map_ofNat_strToBytes, filter_wrap _ hnonl,
      flatten_chunkList _ hll bits]
  · have hdvd : w ∣ bits.length := by
      rw [hlen]
      exact dvd_mul_right w h
    obtain ⟨B, hB, h256, hba⟩ := bin2ascii_ascii2bin w hw bits hb hdvd
    refine ⟨B, _, hB, write_pbm_bin_eq B w h, ?_⟩
    rw [pbmHeaderBytes,
      loadpbm_eval fname (("P4").toList) commentLine
        (natDigits w ++ ' ' :: natDigits h) _ (by decide) (by decide)
        (dims_bytes w h),
      pbmTail_P4 fname w h B, hba]

/-- Witness for C1 at the 3×2 bitmap `101010`. -/
theorem c1_roundtrip_witness :
    (0 < 3 ∧ 0 < 2 ∧ (∀ c ∈ ("101010").toList, c = '0' ∨ c = '1') ∧
      ("101010").toList.length = 3 * 2) ∧
    ((∃ out, write_pbm (.ascii (("101010").toList)) 3 2 (("ascii").toList)
        = some out ∧
      loadpbm [] out
        = .ok (("P1").toList, ("101010").toList, (3 : Int), (2 : Int))) ∧
    (∃ bin out, ascii2bin (("101010").toList) 3 = some bin ∧
      write_pbm (.bin bin) 3 2 (("bin").toList) = some out ∧
      loadpbm [] out
        = .ok (("P4").toList, ("101010").toList, (3 : Int), (2 : Int)))) :=
  ⟨⟨by decide, by decide, by decide, by decide⟩,
    c1_roundtrip 3 2 (by decide) (by decide) (("101010").toList) (by decide)
      (by decide) []⟩

/-- C9: in ascii mode the emitted body is the bit-string split into
newline-terminated lines of at most `min 70 width` characters whose
concatenation is exactly the bit-string. -/
theorem c9_ascii_line_wrapping (w h : Nat) (hw : 0 < w) (bits : List Char)
    (hb : ∀ c ∈ bits, c = '0' ∨ c = '1') (hlen : bits.length = w * h) :
    ∃ lines : List (List Char),
      write_pbm (.ascii bits) w h (("ascii").toList)
        = some (pbmHeaderBytes (("P1").toList) w h ++
            (lines.map (fun l => strToBytes (l ++ ['\n']))).flatten) ∧
      (∀ l ∈ lines, l.length ≤ min 70 w) ∧
      lines.flatten = bits := by
  have hll : 0 < (if w ≥ 70 then 70 else w) := by
    by_cases h70 : w ≥ 70 <;> simp [h70] <;> omega
  refine ⟨chunkList bits (if w ≥ 70 then 70 else w),
    write_pbm_ascii_eq bits w h (lineLength_ne_zero w hw), ?_,
    flatten_chunkList _ hll bits⟩
  intro l hl
  have hle := chunkList_length_le _ hll bits l hl
  have hmin : (if w ≥ 70 then 70 else w) = min 70 w := by
    rw [Nat.min_def]
  rw [hmin] at hle
  exact hle

/-- Witness for C9 at the 3×2 bitmap `101010`. -/
theorem c9_ascii_line_wrapping_witness :
    (0 < 3 ∧ (∀ c ∈ ("101010").toList, c = '0' ∨ c = '1') ∧
      ("101010").toList.length = 3 * 2) ∧
    ∃ lines : List (List Char),
      write_pbm (.ascii (("101010").toList)) 3 2 (("ascii").toList)
        = some (pbmHeaderBytes (("P1").toList) 3 2 ++
            (lines.map (fun l => strToBytes (l ++ ['\n']))).flatten) ∧
      (∀ l ∈ lines, l.length ≤ min 70 3) ∧
      lines.flatten = ("101010").toList :=
  ⟨⟨by decide, by decide, by decide⟩,
    c9_ascii_line_wrapping 3 2 (by decide) (("101010").toList) (by decide)
      (by decide)⟩

/-- C10: in both modes the encoder's output has the magic line first, the
fixed comment line `# Created by svg2pbm converter` second, and the
dimensions line third; the comment line starts with `#`. -/
theorem c10_always_comment_line (w h : Nat) (hw : 0 < w) (bits : List Char)
    (bytes : List Nat) :
    ∃ outA outB,
      write_pbm (.ascii bits) w h (("ascii").toList) = some outA ∧
      write_pbm (.bin bytes) w h (("bin").toList) = some outB ∧
      (readLine outA).1 = strToBytes (("P1").toList) ++ [10] ∧
      (readLine outB).1 = strToBytes (("P4").toList) ++ [10] ∧
      (readLine (readLine outA).2).1 = strToBytes commentLine ++ [10] ∧
      (readLine (readLine outB).2).1 = strToBytes commentLine ++ [10] ∧
      (readLine (readLine (readLine outA).2).2).1
        = strToBytes (natDigits w ++ ' ' :: natDigits h) ++ [10] ∧
      (readLine (readLine (readLine outB).2).2).1
        = strToBytes (natDigits w ++ ' ' :: natDigits h) ++ [10] ∧
      commentLine.head? = some '#' := by
  obtain ⟨l1A, l2A, l3A⟩ :=
    pbmHeader_lines (("P1").toList) w h
      (((chunkList bits (if w ≥ 70 then 70 else w)).map
        (fun l => strToBytes (l ++ ['\n']))).flatten) (by decide)
  obtain ⟨l1B, l2B, l3B⟩ :=
    pbmHeader_lines (("P4").toList) w h bytes (by decide)
  exact ⟨_, _, write_pbm_ascii_eq bits w h (lineLength_ne_zero w hw),
    write_pbm_bin_eq bytes w h, l1A, l1B, l2A, l2B, l3A, l3B, by decide⟩

/-- Witness for C10 at a 1×1 bitmap. -/
theorem c10_always_comment_line_witness :
    (0 < 1 : Prop) ∧
    ∃ outA outB,
      write_pbm (.ascii ['0']) 1 1 (("ascii").toList) = some outA ∧
      write_pbm (.bin [0]) 1 1 (("bin").toList) = some outB ∧
      (readLine outA).1 = strToBytes (("P1").toList) ++ [10] ∧
      (readLine outB).1 = strToBytes (("P4").toList) ++ [10] ∧
      (readLine (readLine outA).2).1 = strToBytes commentLine ++ [10] ∧
      (readLine (readLine outB).2).1 = strToBytes commentLine ++ [10] ∧
      (readLine (readLine (readLine outA).2).2).1
        = strToBytes (natDigits 1 ++ ' ' :: natDigits 1) ++ [10] ∧
      (readLine (readLine (readLine outB).2).2).1
        = strToBytes (natDigits 1 ++ ' ' :: natDigits 1) ++ [10] ∧
      commentLine.head? = some '#' :=
  ⟨by decide, c10_always_comment_line 1 1 (by decide) ['0'] [0]⟩

/-- C2 counterexample: the claimed inverse `packRows (unpackRows b w) w = b`
fails for `w = 5` on the one-byte buffer `[255]` (length `1`, a multiple of
`ceil(5/8) = 1`): the nonzero padding bits are discarded and re-zeroed, so
the round trip returns `[248]`, not `[255]`. -/
theorem c2_counterexample :
    ascii2bin (bin2ascii [255] 5) 5 = some [248] ∧
    ascii2bin (bin2ascii [255] 5) 5 ≠ some [255] := by decide

/-- C2 amended: `bin2ascii (ascii2bin s w) = s` holds as claimed for every
`'0'`/`'1'` string whose length is a multiple of `w ≥ 1`; the converse
`ascii2bin (bin2ascii b w) = b` holds only for buffers made of rows of
`w / 8 + 1` bytes (the code's row size, `ceil(w/8)` only when `w % 8 ≠ 0`)
whose padding bits beyond column `w` are all zero. -/
theorem c2_amended :
    (∀ (w : Nat) (s : List Char), 0 < w → (∀ c ∈ s, c = '0' ∨ c = '1') →
      w ∣ s.length → ∃ b, ascii2bin s w = some b ∧ bin2ascii b w = s) ∧
    (∀ (w : Nat) (rows : List (List Nat)), 0 < w →
      (∀ r ∈ rows, r.length = w / 8 + 1) →
      (∀ r ∈ rows, ∀ x ∈ r, x < 256) →
      (∀ r ∈ rows, ((r.map (natBits 8)).flatten).drop w
        = List.replicate (8 - w % 8) '0') →
      ascii2bin (bin2ascii rows.flatten w) w = some rows.flatten) := by
  constructor
  · intro w s hw hs hdvd
    obtain ⟨B, h1, _, h2⟩ := bin2ascii_ascii2bin w hw s hs hdvd
    exact ⟨B, h1, h2⟩
  · intro w rows hw h1 h2 h3
    exact ascii2bin_bin2ascii_rows w hw rows h1 h2 h3

/-- Witness for C2 at `w = 2`, `s = "11"` and `w = 9`, rows `[[160, 0]]`. -/
theorem c2_amended_witness :
    (∃ b, ascii2bin (("11").toList) 2 = some b ∧
      bin2ascii b 2 = ("11").toList) ∧
    ascii2bin (bin2ascii [160, 0] 9) 9 = some [160, 0] :=
  ⟨c2_amended.1 2 (("11").toList) (by decide) (by decide) (by decide),
    c2_amended.2 9 [[160, 0]] (by decide) (by decide) (by decide) (by decide)⟩

/-- C3: the padding rule in the code.  For `w = 5` a row packs into
`ceil(5/8) = 1` byte and for `w = 12` into `ceil(12/8) = 2` bytes as the
claim says, but for `w = 8` the code appends `8 - (8 % 8) = 8` zero bits and
packs an all-ones row into TWO bytes `[255, 0]`, not the claimed single
byte: `refiller = 8 - (width % 8)` is `8`, not `0`, when `width % 8 = 0`. -/
theorem c3_width8_padding :
    ascii2bin (List.replicate 5 '1') 5 = some [248] ∧
    ascii2bin (List.replicate 12 '1') 12 = some [255, 240] ∧
    ascii2bin (List.replicate 8 '1') 8 = some [255, 0] := by decide

/-- C4 counterexample: a P1 body of length 99 declared as `10 10` decodes
successfully (no `MalformedBody` failure of any kind); `loadpbm` performs no
body validation. -/
theorem c4_counterexample :
    loadpbm [] (strToBytes (("P1\n#c\n10 10\n").toList) ++
        List.replicate 99 48)
      = .ok (("P1").toList, List.replicate 99 '0', 10, 10) := by decide

/-- C4 amended: `loadpbm` never checks the body against the declared
dimensions.  For any header and ANY body (no length or character-set
relation to `w`, `h` required) the P1 path succeeds, returning the
newline-stripped decoded body, provided only that the body bytes are ASCII;
and the P4 path succeeds on any byte count whatsoever. -/
theorem c4_amended (fname comment : List Char) (w h : Nat)
    (body bodyB : List Nat)
    (hcm : ∀ c ∈ comment, c.toNat ≠ 10) (hbody : ∀ b ∈ body, b < 128) :
    loadpbm fname (strToBytes (("P1").toList ++ ['\n']) ++
        strToBytes (comment ++ ['\n']) ++
        strToBytes ((natDigits w ++ ' ' :: natDigits h) ++ ['\n']) ++ body)
      = .ok (("P1").toList,
          (body.map Char.ofNat).filter (fun c => c != '\n'),
          (w : Int), (h : Int)) ∧
    loadpbm fname (strToBytes (("P4").toList ++ ['\n']) ++
        strToBytes (comment ++ ['\n']) ++
        strToBytes ((natDigits w ++ ' ' :: natDigits h) ++ ['\n']) ++ bodyB)
      = .ok (("P4").toList, bin2ascii bodyB w, (w : Int), (h : Int)) := by
  constructor
  · rw [loadpbm_eval fname (("P1").toList) comment _ body (by decide) hcm
      (dims_bytes w h), pbmTail_P1 fname w h body hbody]
  · rw [loadpbm_eval fname (("P4").toList) comment _ bodyB (by decide) hcm
      (dims_bytes w h), pbmTail_P4 fname w h bodyB]

/-- Witness for C4: the 99-byte body under a `10 10` header, P1 and P4. -/
theorem c4_amended_witness :
    loadpbm [] (strToBytes (("P1").toList ++ ['\n']) ++
        strToBytes ((("#c").toList) ++ ['\n']) ++
        strToBytes ((natDigits 10 ++ ' ' :: natDigits 10) ++ ['\n']) ++
        List.replicate 99 48)
      = .ok (("P1").toList,
          ((List.replicate 99 48).map Char.ofNat).filter (fun c => c != '\n'),
          (10 : Int), (10 : Int)) ∧
    loadpbm [] (strToBytes (("P4").toList ++ ['\n']) ++
        strToBytes ((("#c").toList) ++ ['\n']) ++
        strToBytes ((natDigits 10 ++ ' ' :: natDigits 10) ++ ['\n']) ++ [7])
      = .ok (("P4").toList, bin2ascii [7] 10, (10 : Int), (10 : Int)) :=
  c4_amended [] (("#c").toList) 10 10 (List.replicate 99 48) [7]
    (by decide) (by decide)

/-- C5: the decoder does not skip comment lines by their `#` prefix; it
unconditionally discards exactly one line after the magic line.  On a file
with ZERO comment lines, `P1\n2 1\n10\n`, the dimensions line `2 1` is
thrown away as if it were the comment, the body line `10` is parsed as the
dimensions, and decoding fails — where the claim (and the source's own TODO
comment) requires it to succeed as a 2×1 bitmap. -/
theorem c5_single_line_skip :
    loadpbm [] (strToBytes (("P1\n2 1\n10\n").toList)) = .error .valueError := by
  decide

/-- C6 counterexample: decoding a `P7` file does fail, but the error message
is `unknown format from file f.pbm` — it names the FILENAME and does not
mention the offending token `P7` (no character `7` occurs in it at all). -/
theorem c6_counterexample :
    loadpbm (("f.pbm").toList) (strToBytes (("P7\n#c\n2 2\n").toList))
      = .error (.exceptionMsg (("unknown format from file f.pbm").toList)) ∧
    '7' ∉ (("unknown format from file f.pbm").toList) := by decide

/-- C6 amended: for any first line other than exactly `P1`/`P4`, decoding a
file whose dimensions line is well formed fails with the generic
`Exception` whose message is `unknown format from file ` followed by the
FILENAME (not the offending token); the check runs only after the
dimensions line has been split into exactly two tokens. -/
theorem c6_amended (fname tok comment : List Char) (w h : Nat)
    (body : List Nat)
    (htok : ∀ c ∈ tok, c.toNat < 128 ∧ c.toNat ≠ 10)
    (hne1 : tok ≠ ("P1").toList) (hne4 : tok ≠ ("P4").toList)
    (hcm : ∀ c ∈ comment, c.toNat ≠ 10) :
    loadpbm fname (strToBytes (tok ++ ['\n']) ++
        strToBytes (comment ++ ['\n']) ++
        strToBytes ((natDigits w ++ ' ' :: natDigits h) ++ ['\n']) ++ body)
      = .error (.exceptionMsg
          (("unknown format from file ").toList ++ fname)) := by
  rw [loadpbm_eval fname tok comment _ body htok hcm (dims_bytes w h),
    pbmTail_unknown fname tok (natDigits w) (natDigits h) _ body
      (split_dims w h) hne1 hne4]

/-- Witness for C6 at token `P7`. -/
theorem c6_amended_witness :
    loadpbm (("f.pbm").toList) (strToBytes ((("P7").toList) ++ ['\n']) ++
        strToBytes ((("#c").toList) ++ ['\n']) ++
        strToBytes ((natDigits 2 ++ ' ' :: natDigits 2) ++ ['\n']) ++ [])
      = .error (.exceptionMsg
          (("unknown format from file ").toList ++ ("f.pbm").toList)) :=
  c6_amended (("f.pbm").toList) (("P7").toList) (("#c").toList) 2 2 []
    (by decide) (by decide) (by decide) (by decide)

/-- C7 counterexample: a dimensions line `0 0` (both integers non-positive)
is ACCEPTED: decoding succeeds with width and height `0`; no
`MalformedHeader`-style failure occurs. -/
theorem c7_counterexample :
    loadpbm [] (strToBytes (("P1\n#c\n0 0\n").toList))
      = .ok (("P1").toList, [], 0, 0) := by decide

/-- C7 amended: the decoder reads the THIRD line (not the first non-comment
line) as the dimensions line; it fails with Python's `ValueError` exactly
when splitting that line on single spaces does not give two pieces (or a
piece is not a valid integer), and it performs NO positivity check: any two
integers, including zero and negative ones, are accepted. -/
theorem c7_amended :
    (∀ (fname comment dim : List Char) (body : List Nat),
      (∀ c ∈ comment, c.toNat ≠ 10) →
      (∀ c ∈ dim, c.toNat < 128 ∧ c.toNat ≠ 10) →
      (splitOnChar ' ' dim).length ≠ 2 →
      loadpbm fname (strToBytes (("P1").toList ++ ['\n']) ++
          strToBytes (comment ++ ['\n']) ++ strToBytes (dim ++ ['\n']) ++ body)
        = .error .valueError) ∧
    (∀ (fname comment : List Char) (w h : Int) (body : List Nat),
      (∀ c ∈ comment, c.toNat ≠ 10) → (∀ b ∈ body, b < 128) →
      loadpbm fname (strToBytes (("P1").toList ++ ['\n']) ++
          strToBytes (comment ++ ['\n']) ++
          strToBytes ((intRepr w ++ ' ' :: intRepr h) ++ ['\n']) ++ body)
        = .ok (("P1").toList,
            (body.map Char.ofNat).filter (fun c => c != '\n'), w, h)) := by
  constructor
  · intro fname comment dim body hcm hd hsplit
    rw [loadpbm_eval fname (("P1").toList) comment dim body (by decide) hcm hd,
      pbmTail_badsplit fname (("P1").toList) dim body hsplit]
  · intro fname comment w h body hcm hbody
    rw [loadpbm_eval fname (("P1").toList) comment _ body (by decide) hcm
      (dims_bytes_int w h), pbmTail_P1_int fname w h body hbody]

/-- Witness for C7: a one-token dimensions line `10` fails; a `-3 0`
dimensions line (negative and zero) is accepted. -/
theorem c7_amended_witness :
    loadpbm [] (strToBytes (("P1").toList ++ ['\n']) ++
        strToBytes ((("#c").toList) ++ ['\n']) ++
        strToBytes ((("10").toList) ++ ['\n']) ++ [])
      = .error .valueError ∧
    loadpbm [] (strToBytes (("P1").toList ++ ['\n']) ++
        strToBytes ((("#c").toList) ++ ['\n']) ++
        strToBytes ((intRepr (-3) ++ ' ' :: intRepr 0) ++ ['\n']) ++ [])
      = .ok (("P1").toList, [], (-3 : Int), (0 : Int)) :=
  ⟨c7_amended.1 [] (("#c").toList) (("10").toList) [] (by decide) (by decide)
      (by decide),
    c7_amended.2 [] (("#c").toList) (-3) 0 [] (by decide) (by decide)⟩

/-- C8 counterexample: neither primitive validates its input length.
`ascii2bin` on the 1-character string `1` with `w = 2` (length not a
multiple of 2) succeeds, packing the padded partial row into `[64]`; and
`bin2ascii` on the 1-byte buffer `[0]` with `w = 9` (length not a multiple
of `ceil(9/8) = 2`) succeeds, returning eight `0` characters. -/
theorem c8_counterexample :
    ascii2bin (("1").toList) 2 = some [64] ∧
    bin2ascii [0] 9 = List.replicate 8 '0' := by decide

/-- C8 amended: `ascii2bin` performs no length check at all — it succeeds on
EVERY `'0'`/`'1'` string for every `w ≥ 1`, padding a final partial row like
a full one; `bin2ascii` is a total function and likewise never fails. -/
theorem c8_amended (w : Nat) (hw : 0 < w) (s : List Char)
    (hs : ∀ c ∈ s, c = '0' ∨ c = '1') :
    ∃ b, ascii2bin s w = some b := by
  simp only [ascii2bin, if_neg (by omega : ¬ w = 0)]
  apply mapOpt_chunks_bits
  intro c hcmem
  obtain ⟨x, hx, hcx⟩ := List.mem_flatten.mp hcmem
  obtain ⟨l, hl, rfl⟩ := List.mem_map.mp hx
  rcases List.mem_append.mp hcx with h1 | h1
  · exact hs c (chunkList_sublists w hw s l hl c h1)
  · exact Or.inl (List.eq_of_mem_replicate h1)

/-- Witness for C8 at `s = "1"`, `w = 2` (length 1 is not a multiple of 2,
yet packing succeeds). -/
theorem c8_amended_witness :
    ∃ b, ascii2bin (("1").toList) 2 = some b :=
  c8_amended 2 (by decide) (("1").toList) (by decide)
